import Mathlib

/-!
Verification of the data-preparation and aggregation pipeline of the two
Citi Bike dashboards (`bike_dashboard_final_fixed.py`, variant "v1", and
`bike_dashboard_simple_csv_cleaned_Part_2.py`, variant "p2").

Tables are embedded as lists of rows; timestamps as rational epoch seconds
(after parsing) or as raw cells that may fail to parse; pandas operations
(`between`, `groupby(...).agg`, `value_counts`, `head`, `pd.cut`,
`Series.get`) are embedded as the corresponding list transforms.
-/

namespace CitiBike

/-- A parsed trip row (after `pd.to_datetime` has succeeded): timestamps are
epoch seconds as exact rationals. Mirrors the CSV schema used by the code. -/
structure Trip where
  ride_id : String
  started_at : ℚ
  ended_at : ℚ
  start_station_name : String
  end_station_name : String
  member_casual : Option String
  rideable_type : Option String
deriving DecidableEq

/-- `ts.dt.date`: the calendar date of an epoch-second timestamp, as the
number of whole days since the epoch. -/
def dateOf (t : ℚ) : ℤ := ⌊t / 86400⌋

/-- `(ended_at - started_at).dt.total_seconds() / 60` (both variants). -/
def ride_duration_min (r : Trip) : ℚ := (r.ended_at - r.started_at) / 60

/-- `df_temp[df_temp['ride_duration_min'].between(low, high)]`: pandas
`between` is inclusive at both ends by default. -/
def between_filter (l : List Trip) (low high : ℚ) : List Trip :=
  l.filter fun r => decide (low ≤ ride_duration_min r) && decide (ride_duration_min r ≤ high)

/-- The group keys of `groupby('date')`: the distinct dates of the table,
sorted ascending (pandas `groupby` sorts its keys by default). -/
def groupDates (l : List Trip) : List ℤ :=
  List.insertionSort (· ≤ ·) ((l.map fun r => dateOf r.started_at).dedup)

/-- `agg({'ride_id': 'count'})` for one date group: the number of rows whose
start date is `d` (every row carries a ride id, so count = group size). -/
def dailyCount (l : List Trip) (d : ℤ) : ℕ :=
  (l.filter fun r => decide (dateOf r.started_at = d)).length

/-- `agg({'ride_duration_min': 'mean'})` for one date group. -/
def dailyMeanDuration (l : List Trip) (d : ℤ) : ℚ :=
  ((l.filter fun r => decide (dateOf r.started_at = d)).map ride_duration_min).sum
    / (dailyCount l d : ℚ)

/-- `daily_stats = df.groupby('date').agg({'ride_id': 'count',
'ride_duration_min': 'mean'})`, one `(date, count, mean)` row per distinct
date, ordered by date ascending (identical in both variants). -/
def daily_stats (l : List Trip) : List (ℤ × ℕ × ℚ) :=
  (groupDates l).map fun d => (d, dailyCount l d, dailyMeanDuration l d)

/-- Variant v1's Daily Trends page: derive durations, filter to the
`(1, 120)` inclusion window, then aggregate by day (lines 67-80). -/
def dailyTrendsView_v1 (l : List Trip) : List (ℤ × ℕ × ℚ) :=
  daily_stats (between_filter l 1 120)

/-- Variant p2's Dual-axis Line Chart page: derive durations and aggregate
by day directly — the source applies no duration filter here (lines 49-57). -/
def dailyTrendsView_p2 (l : List Trip) : List (ℤ × ℕ × ℚ) :=
  daily_stats l

/-- A concrete trip of duration 130 minutes (started at epoch second 0,
ended at 7800). -/
def t130 : Trip :=
  { ride_id := "r1", started_at := 0, ended_at := 7800,
    start_station_name := "A", end_station_name := "B",
    member_casual := some "member", rideable_type := some "classic_bike" }

/-- Ordering used by `Series.value_counts()`: descending by count. -/
def byCountDesc (a b : String × ℕ) : Prop := b.2 ≤ a.2

instance : DecidableRel byCountDesc := fun a b => Nat.decLe b.2 a.2

instance : IsTotal (String × ℕ) byCountDesc := ⟨fun a b => Nat.le_total b.2 a.2⟩

instance : IsTrans (String × ℕ) byCountDesc := ⟨fun _ _ _ h1 h2 => Nat.le_trans h2 h1⟩

/-- `column.value_counts()`: one `(value, count)` pair per distinct value of
the column, sorted descending by count (tie order between equal counts is
an implementation detail; the embedding uses a stable sort over first
appearance order). -/
def value_counts (col : List String) : List (String × ℕ) :=
  List.insertionSort byCountDesc (col.dedup.map fun v => (v, col.count v))

/-- `column.value_counts().head(n)`: the ranking aggregator (used with
`n = 10` for the station rankings in both variants). -/
def top_n (col : List String) (n : ℕ) : List (String × ℕ) :=
  (value_counts col).take n

/-- `column.value_counts().get(v, 0)`: the count reported for a category,
defaulting to 0 when the category is absent (lines 132-135 of v1, lines
154-157 of p2). -/
def vc_get (col : List String) (v : String) : ℕ :=
  ((value_counts col).lookup v).getD 0

/-- The non-null values of a categorical column (`value_counts` drops
nulls by default). -/
def colVals (col : List (Option String)) : List String :=
  col.filterMap id

/-- `value_counts().sum()`: the denominator used by the percentage
metrics in both variants. -/
def countsSum (col : List (Option String)) : ℚ :=
  (((value_counts (colVals col)).map Prod.snd).sum : ℕ)

/-- `(value_counts().get(v, 0) / value_counts().sum()) * 100`, e.g.
`member_pct` and `electric_pct` in both variants. -/
def category_pct (col : List (Option String)) (v : String) : ℚ :=
  ((vc_get (colVals col) v : ℚ) / countsSum col) * 100

/-- Observed minimum of a duration column (junk value 0 on the empty
column, on which the binner is never invoked by the claims below). -/
def observedMin : List ℚ → ℚ
  | [] => 0
  | x :: rest => rest.foldl min x

/-- Observed maximum of a duration column. -/
def observedMax : List ℚ → ℚ
  | [] => 0
  | x :: rest => rest.foldl max x

/-- `pd.cut`'s range adjustment: when all observed values coincide, the
range is widened by 0.1% of the value (or by 0.001 when the value is 0) on
each side; otherwise the range is the observed `[min, max]`. -/
def cutRange (mn mx : ℚ) : ℚ × ℚ :=
  if mn = mx then
    (mn - (if mn = 0 then 1 / 1000 else |mn| / 1000),
      mx + (if mx = 0 then 1 / 1000 else |mx| / 1000))
  else (mn, mx)

/-- The `i`-th of the `nb + 1` equally spaced breakpoints over `[lo, hi]`. -/
def binEdge (lo hi : ℚ) (nb i : ℕ) : ℚ := lo + (hi - lo) * i / nb

/-- Membership of a value in the `i`-th bin of `pd.cut`: intervals are
right-closed, and the first bin's left edge is lowered slightly so that the
observed minimum falls into the first bin (membership-equivalent to
treating the first interval as left-closed). -/
def inBin (lo hi : ℚ) (nb i : ℕ) (x : ℚ) : Bool :=
  (if i = 0 then decide (binEdge lo hi nb 0 ≤ x)
    else decide (binEdge lo hi nb i < x))
    && decide (x ≤ binEdge lo hi nb (i + 1))

/-- `pd.cut(xs, bins=nb).value_counts().sort_index()` (v1 line 159): the
`nb` equal-width bins over the observed range of `xs`, in ascending order,
each paired with its occupancy count; empty bins appear with count 0
(`value_counts` on a categorical reports all categories). -/
def hist_data (xs : List ℚ) (nb : ℕ) : List ((ℚ × ℚ) × ℕ) :=
  match xs with
  | [] => []
  | _ :: _ =>
    let lo := (cutRange (observedMin xs) (observedMax xs)).1
    let hi := (cutRange (observedMin xs) (observedMax xs)).2
    (List.range nb).map fun i =>
      ((binEdge lo hi nb i, binEdge lo hi nb (i + 1)), xs.countP (inBin lo hi nb i))

/-- A raw timestamp cell as read from the CSV: either a string that
`pd.to_datetime` parses to an instant (kept abstract as its epoch-second
value) or a malformed string on which parsing raises. -/
inductive TsCell where
  | valid (sec : ℚ)
  | malformed (raw : String)
deriving DecidableEq

/-- The parse failure raised by `pd.to_datetime` (default `errors='raise'`). -/
inductive ParseError where
  | badTimestamp (raw : String)
deriving DecidableEq

/-- Whether a raw timestamp cell parses. -/
def TsCell.isValid : TsCell → Bool
  | .valid _ => true
  | .malformed _ => false

/-- The parsed epoch seconds of a cell; junk value 0 on a malformed cell,
only ever evaluated under a validity hypothesis. -/
def TsCell.sec : TsCell → ℚ
  | .valid s => s
  | .malformed _ => 0

/-- Parsing one timestamp cell. -/
def parse_datetime : TsCell → Except ParseError ℚ
  | .valid s => .ok s
  | .malformed r => .error (.badTimestamp r)

/-- `pd.to_datetime(column)`: parses the whole column, raising on the
first malformed cell. -/
def to_datetime : List TsCell → Except ParseError (List ℚ)
  | [] => .ok []
  | c :: rest =>
    match parse_datetime c, to_datetime rest with
    | .ok s, .ok srest => .ok (s :: srest)
    | .error e, _ => .error e
    | .ok _, .error e => .error e

/-- A trip row as read from the CSV, before timestamp parsing. -/
structure RawTrip where
  ride_id : String
  started_at : TsCell
  ended_at : TsCell
  start_station_name : String
  end_station_name : String
  member_casual : Option String
  rideable_type : Option String
deriving DecidableEq

/-- The duration derivation of the views: parse the two timestamp columns
(aborting with the parse error if either fails), then take
`(ended - started).total_seconds() / 60` row-wise. -/
def derive_duration_minutes (l : List RawTrip) : Except ParseError (List ℚ) :=
  match to_datetime (l.map fun r => r.started_at),
      to_datetime (l.map fun r => r.ended_at) with
  | .ok s, .ok e => .ok (List.zipWith (fun a b => (b - a) / 60) s e)
  | .error pe, _ => .error pe
  | .ok _, .error pe => .error pe

/-- Reassembles parsed trips from raw rows and their parsed timestamp
columns. -/
def buildTrips (l : List RawTrip) (s e : List ℚ) : List Trip :=
  List.zipWith
    (fun p b =>
      { ride_id := p.1.ride_id, started_at := p.2, ended_at := b,
        start_station_name := p.1.start_station_name,
        end_station_name := p.1.end_station_name,
        member_casual := p.1.member_casual, rideable_type := p.1.rideable_type })
    (l.zip s) e

/-- The v1 Daily Trends view from raw rows: timestamp parsing followed by
the filtered daily aggregation; a parse failure aborts the view. -/
def daily_trends_from_raw (l : List RawTrip) : Except ParseError (List (ℤ × ℕ × ℚ)) :=
  match to_datetime (l.map fun r => r.started_at),
      to_datetime (l.map fun r => r.ended_at) with
  | .ok s, .ok e => .ok (dailyTrendsView_v1 (buildTrips l s e))
  | .error pe, _ => .error pe
  | .ok _, .error pe => .error pe

/-- A concrete raw trip whose timestamps parse (duration 130 minutes). -/
def rawOK : RawTrip :=
  { ride_id := "r1", started_at := TsCell.valid 0, ended_at := TsCell.valid 7800,
    start_station_name := "A", end_station_name := "B",
    member_casual := some "member", rideable_type := some "classic_bike" }

/-- A concrete raw trip whose start timestamp is malformed. -/
def rawBad : RawTrip :=
  { ride_id := "r2", started_at := TsCell.malformed "not-a-date",
    ended_at := TsCell.valid 0,
    start_station_name := "A", end_station_name := "B",
    member_casual := some "casual", rideable_type := some "electric_bike" }

/-- The exception pandas raises when the CSV path does not exist. -/
inductive PyExn where
  | fileNotFound
deriving DecidableEq

/-- `pd.read_csv('202201-citibike-tripdata_1_sample.csv')` against a
filesystem that may lack the file. -/
def read_csv (fs : Option (List RawTrip)) : Except PyExn (List RawTrip) :=
  match fs with
  | some t => .ok t
  | none => .error .fileNotFound

/-- v1's `load_data` (lines 13-20): `try: read_csv ... except
FileNotFoundError: st.error(...); return None`. -/
def load_data_v1 (fs : Option (List RawTrip)) : Option (List RawTrip) :=
  match read_csv fs with
  | .ok t => some t
  | .error _ => none

/-- p2's `load_data` (lines 8-11): a bare `read_csv` with no exception
handler — a missing file propagates `FileNotFoundError`. -/
def load_data_p2 (fs : Option (List RawTrip)) : Except PyExn (List RawTrip) :=
  read_csv fs

/-- The selectable pages (the two variants' page sets map onto the same
aggregation contracts). -/
inductive Page where
  | intro
  | dailyTrends
  | popularStations
  | userAnalysis
  | recommendations
deriving DecidableEq

/-- Whether the page's body runs any aggregation over the table. -/
def pageRunsAggregation : Page → Bool
  | .intro => true
  | .dailyTrends => true
  | .popularStations => true
  | .userAnalysis => true
  | .recommendations => false

/-- What one script run renders. -/
structure Render where
  errorShown : Bool
  aggregationRun : Bool
deriving DecidableEq

/-- One run of the v1 script: `df = load_data(); if df is not None: <page
body> else: st.error(...)`. -/
def run_script_v1 (fs : Option (List RawTrip)) (page : Page) : Render :=
  match load_data_v1 fs with
  | some _ => { errorShown := false, aggregationRun := pageRunsAggregation page }
  | none => { errorShown := true, aggregationRun := false }

/-- One run of the p2 script: `df = load_data()` at top level with no
handler, so a load failure aborts the whole script before anything is
rendered. -/
def run_script_p2 (fs : Option (List RawTrip)) (page : Page) :
    Except PyExn Render :=
  match load_data_p2 fs with
  | .ok _ => .ok { errorShown := false, aggregationRun := pageRunsAggregation page }
  | .error e => .error e

/-- The `st.cache_data` memo for a loader: the cached value, plus a count
of actual file reads performed. -/
structure CacheState (α : Type) where
  cache : Option α
  fileReads : ℕ

/-- v1's loader under `st.cache_data`: the first call reads the file (and
caches even the `None` result); later calls return the cache untouched. -/
def cached_load_v1 (fs : Option (List RawTrip))
    (s : CacheState (Option (List RawTrip))) :
    Option (List RawTrip) × CacheState (Option (List RawTrip)) :=
  match s.cache with
  | some r => (r, s)
  | none =>
    (load_data_v1 fs,
      { cache := some (load_data_v1 fs), fileReads := s.fileReads + 1 })

/-- p2's loader under `st.cache_data`: successful reads are cached;
an exception propagates and nothing is cached. -/
def cached_load_p2 (fs : Option (List RawTrip)) (s : CacheState (List RawTrip)) :
    Except PyExn (List RawTrip) × CacheState (List RawTrip) :=
  match s.cache with
  | some t => (.ok t, s)
  | none =>
    match read_csv fs with
    | .ok t => (.ok t, { cache := some t, fileReads := s.fileReads + 1 })
    | .error e => (.error e, { cache := none, fileReads := s.fileReads + 1 })

/-- The per-process state shared by every view: the memoized raw table. -/
structure Session where
  raw : List RawTrip

/-- What a view hands to the presentation surface. -/
inductive ViewOut where
  | metrics (rideCount stationCount : ℕ)
  | daily (t : Except ParseError (List (ℤ × ℕ × ℚ)))
  | ranking (startTop endTop : List (String × ℕ))
  | userStats (userCounts bikeCounts : List (String × ℕ))
      (hist : Except ParseError (List ((ℚ × ℚ) × ℕ)))
  | textOnly

/-- `df.copy()`: an independent table with the same contents; all derived
columns are added to the copy only. -/
def copyTable (t : List RawTrip) : List RawTrip := t

/-- `between` on a bare duration column. -/
def between_q (ds : List ℚ) (low high : ℚ) : List ℚ :=
  ds.filter fun d => decide (low ≤ d) && decide (d ≤ high)

/-- The User Analysis duration histogram from raw rows: derive durations,
keep the `(1, 60)` window, bin into 20 bins (v1 lines 152-163). -/
def hist_from_raw (l : List RawTrip) : Except ParseError (List ((ℚ × ℚ) × ℕ)) :=
  match derive_duration_minutes l with
  | .ok ds => .ok (hist_data (between_q ds 1 60) 20)
  | .error e => .error e

/-- One page body: reads the memoized table, copies it before deriving any
columns, and returns the rendered output; the session state is produced as
the source leaves it. -/
def runView (p : Page) (s : Session) : Session × ViewOut :=
  match p with
  | .intro =>
    (s, .metrics s.raw.length (s.raw.map fun r => r.start_station_name).dedup.length)
  | .dailyTrends => (s, .daily (daily_trends_from_raw (copyTable s.raw)))
  | .popularStations =>
    (s, .ranking (top_n (s.raw.map fun r => r.start_station_name) 10)
      (top_n (s.raw.map fun r => r.end_station_name) 10))
  | .userAnalysis =>
    (s, .userStats (value_counts (colVals (s.raw.map fun r => r.member_casual)))
      (value_counts (colVals (s.raw.map fun r => r.rideable_type)))
      (hist_from_raw (copyTable s.raw)))
  | .recommendations => (s, .textOnly)

/-- A sequence of view selections within one process, threading the
session state. -/
def runSeq : List Page → Session → Session × List ViewOut
  | [], s => (s, [])
  | p :: ps, s =>
    ((runSeq ps (runView p s).1).1, (runView p s).2 :: (runSeq ps (runView p s).1).2)

end CitiBike

namespace CitiBike

/-- A list's `dedup` has the same `toFinset` as the list itself. -/
theorem toFinset_dedup_eq {α : Type} [DecidableEq α] (m : List α) :
    m.dedup.toFinset = m.toFinset := by
  ext a
  simp [List.mem_toFinset, List.mem_dedup]

/-- Summing, over the distinct elements of a list, the multiplicity of each
element recovers the list's length. -/
theorem sum_count_over_dedup {α : Type} [DecidableEq α] (m : List α) :
    (m.dedup.map fun k => m.count k).sum = m.length := by
  have h1 : (m.dedup.toFinset.sum fun k => m.count k)
      = (m.dedup.map fun k => m.count k).sum :=
    List.sum_toFinset _ m.nodup_dedup
  rw [← h1, toFinset_dedup_eq, List.sum_toFinset_count_eq_length]

/-- The per-group row count is the multiplicity of the date in the mapped
date column. -/
theorem dailyCount_eq_count (l : List Trip) (d : ℤ) :
    dailyCount l d = (l.map fun r => dateOf r.started_at).count d := by
  rw [dailyCount, ← List.countP_eq_length_filter, List.count, List.countP_map]
  refine List.countP_congr ?_
  intro r _
  simp [Function.comp]

/-- C1: for every filtered input table, `daily_stats` yields entries whose
dates are strictly ascending (hence duplicate-free), whose dates are exactly
the distinct start dates present in the input (so dates with zero qualifying
rows are absent), one entry per distinct date, and whose ride counts sum to
the number of rows of the input table. -/
theorem daily_stats_spec (l : List Trip) :
    ((daily_stats l).map Prod.fst).Sorted (· < ·) ∧
    (∀ d : ℤ, d ∈ (daily_stats l).map Prod.fst ↔ d ∈ l.map fun r => dateOf r.started_at) ∧
    ((daily_stats l).map fun e => e.2.1).sum = l.length ∧
    (daily_stats l).length = (l.map fun r => dateOf r.started_at).dedup.length := by
  have hfst : (daily_stats l).map Prod.fst = groupDates l := by
    simp [daily_stats, List.map_map, Function.comp_def]
  have hperm : (groupDates l).Perm ((l.map fun r => dateOf r.started_at).dedup) :=
    List.perm_insertionSort _ _
  have hnd : (groupDates l).Nodup :=
    hperm.nodup_iff.mpr (List.nodup_dedup _)
  refine ⟨?_, ?_, ?_, ?_⟩
  · rw [hfst]
    exact (List.sorted_insertionSort _ _).lt_of_le hnd
  · intro d
    rw [hfst, hperm.mem_iff, List.mem_dedup]
  · have h2 : ((daily_stats l).map fun e => e.2.1) = (groupDates l).map (dailyCount l) := by
      simp [daily_stats, List.map_map, Function.comp_def]
    rw [h2, (hperm.map (dailyCount l)).sum_eq]
    have h3 : ((l.map fun r => dateOf r.started_at).dedup.map (dailyCount l))
        = ((l.map fun r => dateOf r.started_at).dedup.map
            fun k => (l.map fun r => dateOf r.started_at).count k) := by
      exact List.map_congr_left fun d _ => dailyCount_eq_count l d
    rw [h3, sum_count_over_dedup, List.length_map]
  · rw [daily_stats, List.length_map, hperm.length_eq]

/-- C2: the inclusion-window filter retains exactly the rows whose derived
duration lies in the closed interval `[low, high]`; rows with duration
exactly at either bound are retained, and every retained row satisfies the
bounds. -/
theorem between_filter_spec (l : List Trip) (low high : ℚ) (r : Trip) :
    r ∈ between_filter l low high ↔
      r ∈ l ∧ low ≤ ride_duration_min r ∧ ride_duration_min r ≤ high := by
  simp [between_filter, List.mem_filter, and_assoc]

/-- C3 counterexample: in variant p2 the daily-trend aggregation is *not*
computed over the `(1, 120)`-filtered table — a trip of duration 130 minutes
contributes to the output, which therefore differs from the aggregate of the
filtered table. -/
theorem dailyTrend_p2_unfiltered_cex :
    dailyTrendsView_p2 [t130] ≠ daily_stats (between_filter [t130] 1 120) := by
  have hf : between_filter [t130] 1 120 = [] := by
    unfold between_filter
    rw [List.filter_cons_of_neg, List.filter_nil]
    intro hc
    simp only [Bool.and_eq_true, decide_eq_true_eq] at hc
    have hd : ride_duration_min t130 = 130 := by norm_num [ride_duration_min, t130]
    rw [hd] at hc
    exact absurd hc.2 (by norm_num)
  rw [hf]
  intro h
  have hlen := congrArg List.length h
  simp [dailyTrendsView_p2, daily_stats, groupDates, List.insertionSort,
    List.orderedInsert] at hlen

/-- C3 amended: in variant v1 the daily-trend aggregation is computed over
the `(1, 120)`-filtered table, so a row with duration below 1 or above 120
minutes never contributes to it; in variant p2 the daily-trend aggregation
is computed over the unfiltered table. -/
theorem dailyTrend_window_amended :
    (∀ (l : List Trip) (r : Trip),
        ride_duration_min r < 1 ∨ 120 < ride_duration_min r →
        dailyTrendsView_v1 (r :: l) = dailyTrendsView_v1 l) ∧
    ∀ l : List Trip, dailyTrendsView_p2 l = daily_stats l := by
  constructor
  · intro l r h
    unfold dailyTrendsView_v1 between_filter
    congr 1
    apply List.filter_cons_of_neg
    intro hc
    simp only [Bool.and_eq_true, decide_eq_true_eq] at hc
    rcases h with h | h
    · exact absurd hc.1 (not_le.mpr h)
    · exact absurd hc.2 (not_le.mpr h)
  · intro l
    rfl

/-- Witness for the amended C3 theorem at the concrete 130-minute trip. -/
theorem dailyTrend_window_amended_witness :
    (ride_duration_min t130 < 1 ∨ 120 < ride_duration_min t130) ∧
    dailyTrendsView_v1 [t130] = dailyTrendsView_v1 [] :=
  ⟨Or.inr (by norm_num [ride_duration_min, t130]),
    dailyTrend_window_amended.1 [] t130 (Or.inr (by norm_num [ride_duration_min, t130]))⟩

/-- `value_counts` is a permutation of the one-pair-per-distinct-value list. -/
theorem value_counts_perm (col : List String) :
    (value_counts col).Perm (col.dedup.map fun v => (v, col.count v)) :=
  List.perm_insertionSort _ _

/-- Every pair emitted by `value_counts` carries the occurrence count of its
value. -/
theorem value_counts_snd (col : List String) :
    ∀ p ∈ value_counts col, p.2 = col.count p.1 := by
  intro p hp
  obtain ⟨v, _, rfl⟩ := List.mem_map.mp ((value_counts_perm col).mem_iff.mp hp)
  rfl

/-- The keys of `value_counts` are a permutation of the distinct values. -/
theorem value_counts_keys_perm (col : List String) :
    ((value_counts col).map Prod.fst).Perm col.dedup := by
  have h := (value_counts_perm col).map Prod.fst
  simpa [List.map_map, Function.comp_def] using h

/-- Looking a key up in an association list all of whose pairs agree with
`c` returns `c` of the key when present and `none` otherwise. -/
theorem lookup_consistent {c : String → ℕ} :
    ∀ L : List (String × ℕ), (∀ p ∈ L, p.2 = c p.1) → ∀ v : String,
      L.lookup v = if v ∈ L.map Prod.fst then some (c v) else none := by
  intro L
  induction L with
  | nil => intro _ v; simp
  | cons a L ih =>
    intro h v
    obtain ⟨k, b⟩ := a
    have hb : b = c k := h (k, b) (List.mem_cons_self _ _)
    have ih2 := ih (fun p hp => h p (List.mem_cons_of_mem _ hp)) v
    by_cases hv : v = k
    · subst hv
      simp [List.lookup_cons, hb]
    · have hne : (v == k) = false := beq_eq_false_iff_ne.mpr hv
      have hmem : (v ∈ k :: L.map Prod.fst) ↔ v ∈ L.map Prod.fst := by
        simp [List.mem_cons, hv]
      simp only [List.lookup_cons, hne, ih2, List.map_cons, hmem]

/-- `value_counts(col).get(v, 0)` is the occurrence count of `v` in the
column (in particular 0 when `v` does not occur). -/
theorem vc_get_eq_count (col : List String) (v : String) :
    vc_get col v = col.count v := by
  rw [vc_get, lookup_consistent (c := fun w => col.count w) _ (value_counts_snd col) v]
  by_cases hv : v ∈ (value_counts col).map Prod.fst
  · simp [hv]
  · have hnc : col.count v = 0 := by
      rw [List.count_eq_zero]
      intro hvc
      exact hv ((value_counts_keys_perm col).mem_iff.mpr (List.mem_dedup.mpr hvc))
    simp [hv, hnc]

/-- C5: `top_n` returns `min n (number of distinct values)` pairs, each
pairing a value with its occurrence count, with counts non-increasing from
the first pair to the last. -/
theorem top_n_spec (col : List String) (n : ℕ) :
    (top_n col n).length = min n col.dedup.length ∧
    ((top_n col n).map Prod.snd).Chain' (fun a b => b ≤ a) ∧
    ∀ p ∈ top_n col n, p.2 = col.count p.1 ∧ p.1 ∈ col.dedup := by
  refine ⟨?_, ?_, ?_⟩
  · rw [top_n, List.length_take, (value_counts_perm col).length_eq, List.length_map]
  · have hs : (value_counts col).Sorted byCountDesc := List.sorted_insertionSort _ _
    have hp : (top_n col n).Pairwise byCountDesc :=
      List.Pairwise.sublist (List.take_sublist n _) hs
    exact (List.chain'_map Prod.snd).mpr hp.chain'
  · intro p hp
    obtain ⟨v, hv, rfl⟩ :=
      List.mem_map.mp ((value_counts_perm col).mem_iff.mp (List.mem_of_mem_take hp))
    exact ⟨rfl, hv⟩

/-- C7: the categorical breakdown reports 0 (without failing) for a queried
category that does not occur in the column, and for every value — present or
absent — it reports exactly that value's occurrence count, so present
categories are unaffected. -/
theorem breakdown_absent_spec (col : List String) (v : String) :
    vc_get col v = col.count v ∧ (v ∉ col → vc_get col v = 0) :=
  ⟨vc_get_eq_count col v,
    fun hv => by rw [vc_get_eq_count col v, List.count_eq_zero.mpr hv]⟩

/-- Witness for C7: `casual` is absent from a two-row member column and is
reported as 0. -/
theorem breakdown_absent_spec_witness :
    ("casual" ∉ ["member", "member"]) ∧ vc_get ["member", "member"] "casual" = 0 :=
  ⟨by decide, (breakdown_absent_spec ["member", "member"] "casual").2 (by decide)⟩

/-- The counts reported by `value_counts` sum to the number of column
values counted. -/
theorem value_counts_sum (m : List String) :
    ((value_counts m).map Prod.snd).sum = m.length := by
  rw [((value_counts_perm m).map Prod.snd).sum_eq, List.map_map]
  have hc : (Prod.snd ∘ fun v => (v, m.count v)) = fun v => m.count v := rfl
  rw [hc, sum_count_over_dedup]

/-- A column with no nulls loses nothing to `value_counts`'s null dropping. -/
theorem colVals_length (col : List (Option String)) (h : ∀ x ∈ col, x ≠ none) :
    (colVals col).length = col.length := by
  induction col with
  | nil => rfl
  | cons a col ih =>
    cases a with
    | none => exact absurd rfl (h none (List.mem_cons_self _ _))
    | some s =>
      have hs : colVals (some s :: col) = s :: colVals col := by simp [colVals]
      rw [hs, List.length_cons, ih fun x hx => h x (List.mem_cons_of_mem _ hx),
        List.length_cons]

/-- C8 counterexample: on the empty table (which vacuously has no null
category values) the percentages over all categories sum to 0, not 100 —
the claim fails as stated at this input. -/
theorem breakdown_pct_empty_cex :
    ((value_counts (colVals ([] : List (Option String)))).map
      (fun p => category_pct ([] : List (Option String)) p.1)).sum ≠ 100 := by
  have h : value_counts (colVals ([] : List (Option String))) = [] := rfl
  rw [h]
  norm_num

/-- C8 amended: for every *non-empty* table none of whose rows has a null
value in the categorical column, the per-category counts sum to the number
of rows, each derived percentage equals `100 * count(value) / total_rows`
(exactly, in rational arithmetic), and the percentages over all categories
sum to exactly 100. -/
theorem breakdown_pct_spec (col : List (Option String))
    (h1 : ∀ x ∈ col, x ≠ none) (h2 : col ≠ []) :
    ((value_counts (colVals col)).map Prod.snd).sum = col.length ∧
    (∀ v : String,
      category_pct col v = 100 * ((colVals col).count v : ℚ) / (col.length : ℚ)) ∧
    ((value_counts (colVals col)).map fun p => category_pct col p.1).sum = 100 := by
  have hlen : (colVals col).length = col.length := colVals_length col h1
  have hsum : ((value_counts (colVals col)).map Prod.snd).sum = col.length := by
    rw [value_counts_sum, hlen]
  have hN : ((col.length : ℕ) : ℚ) ≠ 0 := by
    exact_mod_cast Nat.cast_ne_zero.mpr (fun h0 => h2 (List.length_eq_zero.mp h0))
  have hden : countsSum col = (col.length : ℚ) := by
    rw [countsSum, hsum]
  have hpct : ∀ v : String,
      category_pct col v = 100 * ((colVals col).count v : ℚ) / (col.length : ℚ) := by
    intro v
    rw [category_pct, hden, vc_get_eq_count]
    ring
  refine ⟨hsum, hpct, ?_⟩
  have hmap : ((value_counts (colVals col)).map fun p => category_pct col p.1)
      = ((value_counts (colVals col)).map
          fun p => (((colVals col).count p.1 : ℕ) : ℚ) * (100 / (col.length : ℚ))) := by
    refine List.map_congr_left fun p _ => ?_
    rw [hpct p.1]
    ring
  rw [hmap, (((value_counts_perm (colVals col))).map _).sum_eq, List.map_map]
  have hc : ((fun p : String × ℕ => (((colVals col).count p.1 : ℕ) : ℚ)
        * (100 / (col.length : ℚ))) ∘ fun v => (v, (colVals col).count v))
      = fun v => (((colVals col).count v : ℕ) : ℚ) * (100 / (col.length : ℚ)) := rfl
  rw [hc, List.sum_map_mul_right]
  have hcast : ((colVals col).dedup.map fun v => (((colVals col).count v : ℕ) : ℚ)).sum
      = ((((colVals col).dedup.map fun v => (colVals col).count v).sum : ℕ) : ℚ) := by
    rw [Nat.cast_list_sum, List.map_map]
    rfl
  rw [hcast, sum_count_over_dedup, hlen]
  field_simp

/-- Witness for the amended C8 theorem at the spec's three-row example
`[member, member, casual]`. -/
theorem breakdown_pct_spec_witness :
    ((value_counts (colVals [some "member", some "member", some "casual"])).map
      Prod.snd).sum = 3 :=
  (breakdown_pct_spec [some "member", some "member", some "casual"]
    (by decide) (by decide)).1

/-- `foldl min` is a lower bound of its accumulator and of the list. -/
theorem foldl_min_le (l : List ℚ) (a : ℚ) :
    l.foldl min a ≤ a ∧ ∀ x ∈ l, l.foldl min a ≤ x := by
  induction l generalizing a with
  | nil => exact ⟨le_refl a, by simp⟩
  | cons b l ih =>
    have h := ih (min a b)
    refine ⟨le_trans h.1 (min_le_left a b), ?_⟩
    intro x hx
    rcases List.mem_cons.mp hx with rfl | hx
    · exact le_trans h.1 (min_le_right a x)
    · exact h.2 x hx

/-- `foldl max` is an upper bound of its accumulator and of the list. -/
theorem le_foldl_max (l : List ℚ) (a : ℚ) :
    a ≤ l.foldl max a ∧ ∀ x ∈ l, x ≤ l.foldl max a := by
  induction l generalizing a with
  | nil => exact ⟨le_refl a, by simp⟩
  | cons b l ih =>
    have h := ih (max a b)
    refine ⟨le_trans (le_max_left a b) h.1, ?_⟩
    intro x hx
    rcases List.mem_cons.mp hx with rfl | hx
    · exact le_trans (le_max_right a x) h.1
    · exact h.2 x hx

/-- The observed minimum bounds every column value from below. -/
theorem observedMin_le {xs : List ℚ} {x : ℚ} (hx : x ∈ xs) : observedMin xs ≤ x := by
  cases xs with
  | nil => cases hx
  | cons y rest =>
    rcases List.mem_cons.mp hx with rfl | hx2
    · exact (foldl_min_le rest x).1
    · exact (foldl_min_le rest y).2 x hx2

/-- The observed maximum bounds every column value from above. -/
theorem le_observedMax {xs : List ℚ} {x : ℚ} (hx : x ∈ xs) : x ≤ observedMax xs := by
  cases xs with
  | nil => cases hx
  | cons y rest =>
    rcases List.mem_cons.mp hx with rfl | hx2
    · exact (le_foldl_max rest x).1
    · exact (le_foldl_max rest y).2 x hx2

/-- Cut range of a non-degenerate column: the observed `[min, max]`. -/
theorem cutRange_eq_of_ne {mn mx : ℚ} (h : mn ≠ mx) : cutRange mn mx = (mn, mx) := by
  unfold cutRange
  rw [if_neg h]

/-- Cut range when all values are 0: widened by the absolute fallback. -/
theorem cutRange_zero : cutRange 0 0 = (0 - 1 / 1000, 0 + 1 / 1000) := by
  unfold cutRange
  rw [if_pos rfl]
  norm_num

/-- Cut range when all values coincide at a nonzero value. -/
theorem cutRange_eq_same {mn : ℚ} (h0 : mn ≠ 0) :
    cutRange mn mn = (mn - |mn| / 1000, mn + |mn| / 1000) := by
  unfold cutRange
  rw [if_pos rfl, if_neg h0]

/-- The adjusted cut range is never degenerate. -/
theorem cutRange_fst_lt_snd {mn mx : ℚ} (h : mn ≤ mx) :
    (cutRange mn mx).1 < (cutRange mn mx).2 := by
  by_cases heq : mn = mx
  · subst heq
    by_cases h0 : mn = 0
    · subst h0
      rw [cutRange_zero]
      show (0 : ℚ) - 1 / 1000 < 0 + 1 / 1000
      norm_num
    · rw [cutRange_eq_same h0]
      show mn - |mn| / 1000 < mn + |mn| / 1000
      have hp : 0 < |mn| / 1000 := by positivity
      linarith
  · rw [cutRange_eq_of_ne heq]
    exact lt_of_le_of_ne h heq

/-- The adjusted lower edge lies at or below the observed minimum. -/
theorem cutRange_fst_le {mn mx : ℚ} : (cutRange mn mx).1 ≤ mn := by
  by_cases heq : mn = mx
  · subst heq
    by_cases h0 : mn = 0
    · subst h0
      rw [cutRange_zero]
      show (0 : ℚ) - 1 / 1000 ≤ 0
      norm_num
    · rw [cutRange_eq_same h0]
      show mn - |mn| / 1000 ≤ mn
      have hp : 0 ≤ |mn| / 1000 := by positivity
      linarith
  · rw [cutRange_eq_of_ne heq]

/-- The adjusted upper edge lies at or above the observed maximum. -/
theorem le_cutRange_snd {mn mx : ℚ} : mx ≤ (cutRange mn mx).2 := by
  by_cases heq : mn = mx
  · subst heq
    by_cases h0 : mn = 0
    · subst h0
      rw [cutRange_zero]
      show (0 : ℚ) ≤ 0 + 1 / 1000
      norm_num
    · rw [cutRange_eq_same h0]
      show mn ≤ mn + |mn| / 1000
      have hp : 0 ≤ |mn| / 1000 := by positivity
      linarith
  · rw [cutRange_eq_of_ne heq]

/-- The first breakpoint is the lower edge. -/
theorem binEdge_zero (lo hi : ℚ) (nb : ℕ) : binEdge lo hi nb 0 = lo := by
  simp [binEdge]

/-- Consecutive breakpoints are one bin width apart. -/
theorem binEdge_succ_sub (lo hi : ℚ) {nb : ℕ} (hnb : 0 < nb) (i : ℕ) :
    binEdge lo hi nb (i + 1) - binEdge lo hi nb i = (hi - lo) / nb := by
  have hc : (nb : ℚ) ≠ 0 := Nat.cast_ne_zero.mpr hnb.ne'
  rw [binEdge, binEdge]
  push_cast
  field_simp
  ring

/-- Breakpoints are monotone in the bin index. -/
theorem binEdge_mono (lo hi : ℚ) (nb : ℕ) (h : lo ≤ hi) {i j : ℕ} (hij : i ≤ j) :
    binEdge lo hi nb i ≤ binEdge lo hi nb j := by
  rcases Nat.eq_zero_or_pos nb with h0 | hpos
  · subst h0
    simp [binEdge]
  · have hc : (0 : ℚ) < nb := by exact_mod_cast hpos
    rw [binEdge, binEdge]
    apply add_le_add_left
    rw [div_le_div_iff_of_pos_right hc]
    exact mul_le_mul_of_nonneg_left (by exact_mod_cast hij) (sub_nonneg.mpr h)

/-- Two distinct bins cannot both contain the same value. -/
theorem inBin_disjoint {lo hi : ℚ} {nb : ℕ} (h : lo ≤ hi) {j k : ℕ} (hjk : j < k)
    {x : ℚ} (hj : inBin lo hi nb j x = true) (hk : inBin lo hi nb k x = true) :
    False := by
  have hk0 : k ≠ 0 := by omega
  rw [inBin] at hj hk
  rw [if_neg hk0] at hk
  simp only [Bool.and_eq_true, decide_eq_true_eq] at hj hk
  have h1 : x ≤ binEdge lo hi nb (j + 1) := hj.2
  have h2 : binEdge lo hi nb k < x := hk.1
  have h3 : binEdge lo hi nb (j + 1) ≤ binEdge lo hi nb k :=
    binEdge_mono lo hi nb h (by omega)
  linarith

/-- Every value inside the adjusted range lies in exactly one of the `nb`
bins. -/
theorem inBin_exists_unique {lo hi : ℚ} {nb : ℕ} (hnb : 0 < nb) (hlh : lo < hi)
    {x : ℚ} (hx1 : lo ≤ x) (hx2 : x ≤ hi) :
    ∃ i, i < nb ∧ inBin lo hi nb i x = true ∧
      ∀ j, j < nb → inBin lo hi nb j x = true → j = i := by
  have hcnb : (0 : ℚ) < nb := by exact_mod_cast hnb
  set w : ℚ := (hi - lo) / nb with hw
  have hwpos : 0 < w := div_pos (sub_pos.mpr hlh) hcnb
  have hedge : ∀ i : ℕ, binEdge lo hi nb i = lo + i * w := by
    intro i
    rw [binEdge, hw]
    ring
  have hnbw : (nb : ℚ) * w = hi - lo := by
    rw [hw]
    field_simp
  set c : ℤ := ⌈(x - lo) / w⌉ with hcdef
  have hc0 : 0 ≤ c := Int.ceil_nonneg (div_nonneg (sub_nonneg.mpr hx1) hwpos.le)
  have hcle : c ≤ (nb : ℤ) := by
    rw [hcdef]
    apply Int.ceil_le.mpr
    push_cast
    rw [div_le_iff₀ hwpos, hnbw]
    linarith
  have hmem : inBin lo hi nb (c - 1).toNat x = true := by
    by_cases hc1 : c ≤ 1
    · have h0 : (c - 1).toNat = 0 := by omega
      rw [h0, inBin, if_pos rfl]
      simp only [Bool.and_eq_true, decide_eq_true_eq]
      refine ⟨by rw [binEdge_zero]; exact hx1, ?_⟩
      have hle : (x - lo) / w ≤ 1 := by
        have h2 : (x - lo) / w ≤ ((1 : ℤ) : ℚ) := Int.ceil_le.mp (hcdef ▸ hc1)
        push_cast at h2
        exact h2
      have h3 := (div_le_one hwpos).mp hle
      rw [hedge 1]
      push_cast
      linarith
    · have htn : ((c - 1).toNat : ℤ) = c - 1 := Int.toNat_of_nonneg (by omega)
      have hcast : (((c - 1).toNat : ℕ) : ℚ) = (c : ℚ) - 1 := by exact_mod_cast htn
      have hne0 : (c - 1).toNat ≠ 0 := by omega
      rw [inBin]
      rw [if_neg hne0]
      simp only [Bool.and_eq_true, decide_eq_true_eq]
      constructor
      · rw [hedge, hcast]
        have hceil := Int.ceil_lt_add_one ((x - lo) / w)
        rw [← hcdef] at hceil
        have hlt : (c : ℚ) - 1 < (x - lo) / w := by linarith
        have h4 := (lt_div_iff₀ hwpos).mp hlt
        linarith
      · rw [hedge]
        have hcast2 : ((((c - 1).toNat + 1 : ℕ)) : ℚ) = (c : ℚ) := by
          push_cast [hcast]
          ring
        rw [hcast2]
        have h2 := Int.le_ceil ((x - lo) / w)
        rw [← hcdef] at h2
        have h5 := (div_le_iff₀ hwpos).mp h2
        linarith
  refine ⟨(c - 1).toNat, by omega, hmem, ?_⟩
  intro j hj hbin
  rcases lt_trichotomy j (c - 1).toNat with hlt | heq | hgt
  · exact absurd (inBin_disjoint hlh.le hlt hbin hmem) not_false
  · exact heq
  · exact absurd (inBin_disjoint hlh.le hgt hmem hbin) not_false

/-- List sums over `List.range` agree with `Finset.range` sums. -/
theorem range_map_sum_eq {M : Type} [AddCommMonoid M] (nb : ℕ) (f : ℕ → M) :
    ((List.range nb).map f).sum = ∑ i in Finset.range nb, f i := by
  rw [← List.sum_toFinset f (List.nodup_range nb)]
  congr 1
  ext a
  simp [List.mem_toFinset, List.mem_range]

/-- When every element lies in exactly one of `nb` predicate classes, the
per-class counts sum to the list's length. -/
theorem sum_countP_partition {α : Type} (nb : ℕ) (p : ℕ → α → Bool) (xs : List α)
    (h : ∀ x ∈ xs, ∃ i, i < nb ∧ p i x = true ∧ ∀ j, j < nb → p j x = true → j = i) :
    ((List.range nb).map fun i => xs.countP (p i)).sum = xs.length := by
  rw [range_map_sum_eq]
  induction xs with
  | nil => simp
  | cons a xs ih =>
    have ih2 := ih fun x hx => h x (List.mem_cons_of_mem _ hx)
    obtain ⟨i0, hi0, hp0, huniq⟩ := h a (List.mem_cons_self _ _)
    have hsplit : ∀ i ∈ Finset.range nb,
        (a :: xs).countP (p i) = xs.countP (p i) + if p i a = true then 1 else 0 :=
      fun i _ => List.countP_cons _ _ _
    rw [Finset.sum_congr rfl hsplit, Finset.sum_add_distrib, ih2]
    have hone : ∀ i ∈ Finset.range nb,
        (if p i a = true then 1 else 0) = if i = i0 then 1 else 0 := by
      intro i hi
      by_cases hpi : p i a = true
      · rw [if_pos hpi, if_pos (huniq i (Finset.mem_range.mp hi) hpi)]
      · rw [if_neg hpi, if_neg]
        intro heq
        exact hpi (heq ▸ hp0)
    rw [Finset.sum_congr rfl hone,
      Finset.sum_ite_eq' (Finset.range nb) i0 fun _ => 1,
      if_pos (Finset.mem_range.mpr hi0), List.length_cons]

/-- C4: for every non-empty filtered duration column, the histogram binner
emits exactly the 20 requested bins, as contiguous intervals in ascending
order of equal width determined by the observed min/max of the data (when
these differ, the breakpoints are exactly the 21 equally spaced points of
`[min, max]`), empty bins included with count 0, and the bin counts sum to
the number of rows. -/
theorem hist_data_spec (xs : List ℚ) (hne : xs ≠ []) :
    (hist_data xs 20).length = 20 ∧
    ((hist_data xs 20).map fun b => b.2).sum = xs.length ∧
    ((hist_data xs 20).map Prod.fst).Chain' (fun p q => p.2 = q.1) ∧
    (∀ p ∈ (hist_data xs 20).map Prod.fst, p.1 < p.2) ∧
    (∀ p ∈ (hist_data xs 20).map Prod.fst, ∀ q ∈ (hist_data xs 20).map Prod.fst,
      p.2 - p.1 = q.2 - q.1) ∧
    (observedMin xs ≠ observedMax xs → ∀ i : ℕ, i < 20 →
      ((hist_data xs 20).map Prod.fst)[i]? =
        some (binEdge (observedMin xs) (observedMax xs) 20 i,
          binEdge (observedMin xs) (observedMax xs) 20 (i + 1))) := by
  obtain ⟨y, ys, rfl⟩ := List.exists_cons_of_ne_nil hne
  set mn := observedMin (y :: ys) with hmn
  set mx := observedMax (y :: ys) with hmx
  set lo := (cutRange mn mx).1 with hlo
  set hi := (cutRange mn mx).2 with hhi
  have hmnmx : mn ≤ mx :=
    le_trans (observedMin_le (List.mem_cons_self y ys))
      (le_observedMax (List.mem_cons_self y ys))
  have hlh : lo < hi := cutRange_fst_lt_snd hmnmx
  have hform : hist_data (y :: ys) 20 = (List.range 20).map fun i =>
      ((binEdge lo hi 20 i, binEdge lo hi 20 (i + 1)),
        (y :: ys).countP (inBin lo hi 20 i)) := rfl
  have hcompfst : (Prod.fst ∘ fun i =>
      ((binEdge lo hi 20 i, binEdge lo hi 20 (i + 1)),
        (y :: ys).countP (inBin lo hi 20 i)))
      = fun i => (binEdge lo hi 20 i, binEdge lo hi 20 (i + 1)) := rfl
  have hwidth : ∀ i : ℕ,
      binEdge lo hi 20 (i + 1) - binEdge lo hi 20 i = (hi - lo) / 20 :=
    binEdge_succ_sub lo hi (by norm_num)
  have hwpos : (0 : ℚ) < (hi - lo) / 20 := by
    have := sub_pos.mpr hlh
    positivity
  refine ⟨?_, ?_, ?_, ?_, ?_, ?_⟩
  · rw [hform, List.length_map, List.length_range]
  · rw [hform, List.map_map]
    have hcompsnd : ((fun b : (ℚ × ℚ) × ℕ => b.2) ∘ fun i =>
        ((binEdge lo hi 20 i, binEdge lo hi 20 (i + 1)),
          (y :: ys).countP (inBin lo hi 20 i)))
        = fun i => (y :: ys).countP (inBin lo hi 20 i) := rfl
    rw [hcompsnd]
    apply sum_countP_partition
    intro x hx
    exact inBin_exists_unique (by norm_num) hlh
      (le_trans cutRange_fst_le (observedMin_le hx))
      (le_trans (le_observedMax hx) le_cutRange_snd)
  · rw [hform, List.map_map, hcompfst]
    rw [show (20 : ℕ) = Nat.succ 19 from rfl]
    rw [List.chain'_map]
    rw [List.chain'_range_succ]
    intro m _
    rfl
  · rw [hform, List.map_map, hcompfst]
    intro p hp
    obtain ⟨i, _, rfl⟩ := List.mem_map.mp hp
    have := hwidth i
    simp only
    linarith
  · rw [hform, List.map_map, hcompfst]
    intro p hp q hq
    obtain ⟨i, _, rfl⟩ := List.mem_map.mp hp
    obtain ⟨j, _, rfl⟩ := List.mem_map.mp hq
    rw [hwidth i, hwidth j]
  · intro hnemm i hilt
    have hcr : cutRange mn mx = (mn, mx) := by rw [cutRange, if_neg hnemm]
    have hloeq : lo = mn := by rw [hlo, hcr]
    have hhieq : hi = mx := by rw [hhi, hcr]
    rw [hform, List.map_map, hcompfst, List.getElem?_map, List.getElem?_range hilt,
      Option.map_some']
    rw [hloeq, hhieq]

/-- Witness for C4 at the concrete column `[1, 2, 3]`. -/
theorem hist_data_spec_witness :
    (([1, 2, 3] : List ℚ) ≠ []) ∧ (hist_data [1, 2, 3] 20).length = 20 :=
  ⟨by simp, (hist_data_spec [1, 2, 3] (by simp)).1⟩

/-- C6 counterexample: in variant p2 an absent input file does not produce
a rendered error — `load_data` has no exception handler, so the script run
aborts with the uncaught `FileNotFoundError` (nothing is rendered at all),
contrary to the claim that both variants surface a user-visible error
instead of crashing. -/
theorem loader_p2_crash_cex :
    run_script_p2 none Page.intro = Except.error PyExn.fileNotFound := rfl

/-- C6 amended: in the final_fixed variant an absent file makes the loader
return `None`, a user-visible error is rendered and no aggregation runs;
in the Part_2 variant the `FileNotFoundError` propagates uncaught and the
script run aborts before rendering anything. In both variants, with the
file present, a first loader call reads the file once and a repeated call
returns the identical cached result without re-reading. -/
theorem loader_behaviour_amended :
    (∀ page, run_script_v1 none page
      = { errorShown := true, aggregationRun := false }) ∧
    (∀ page, run_script_p2 none page = Except.error PyExn.fileNotFound) ∧
    (∀ fs s, cached_load_v1 fs (cached_load_v1 fs s).2 = cached_load_v1 fs s) ∧
    (∀ t s, cached_load_p2 (some t) (cached_load_p2 (some t) s).2
      = cached_load_p2 (some t) s) ∧
    (∀ t n, cached_load_v1 (some t) ⟨none, n⟩
      = (some t, ⟨some (some t), n + 1⟩)) ∧
    (∀ t n, cached_load_p2 (some t) ⟨none, n⟩
      = (Except.ok t, ⟨some t, n + 1⟩)) := by
  refine ⟨fun page => rfl, fun page => rfl, ?_, ?_, fun t n => rfl, fun t n => rfl⟩
  · intro fs s
    obtain ⟨c, n⟩ := s
    cases c <;> rfl
  · intro t s
    obtain ⟨c, n⟩ := s
    cases c <;> rfl

/-- Parsing a column of valid cells yields their instants. -/
theorem to_datetime_ok (cells : List TsCell)
    (h : ∀ c ∈ cells, c.isValid = true) :
    to_datetime cells = Except.ok (cells.map TsCell.sec) := by
  induction cells with
  | nil => rfl
  | cons c cells ih =>
    have hc := h c (List.mem_cons_self _ _)
    have ih2 := ih fun d hd => h d (List.mem_cons_of_mem _ hd)
    cases c with
    | valid s => simp [to_datetime, parse_datetime, ih2, TsCell.sec]
    | malformed r => simp [TsCell.isValid] at hc

/-- Parsing a column containing a malformed cell raises. -/
theorem to_datetime_err (cells : List TsCell)
    (h : ∃ c ∈ cells, c.isValid = false) :
    ∃ e, to_datetime cells = Except.error e := by
  induction cells with
  | nil =>
    obtain ⟨c, hc, _⟩ := h
    cases hc
  | cons c cells ih =>
    cases c with
    | malformed r => exact ⟨ParseError.badTimestamp r, rfl⟩
    | valid s =>
      have hrest : ∃ d ∈ cells, d.isValid = false := by
        obtain ⟨d, hd, hdv⟩ := h
        rcases List.mem_cons.mp hd with rfl | hd2
        · cases hdv
        · exact ⟨d, hd2, hdv⟩
      obtain ⟨e, he⟩ := ih hrest
      exact ⟨e, by simp [to_datetime, parse_datetime, he]⟩

/-- Zipping two mapped copies of the same list fuses into one map. -/
theorem zipWith_map_same {α β γ : Type} (f : β → β → γ) (g h : α → β)
    (l : List α) :
    List.zipWith f (l.map g) (l.map h) = l.map fun x => f (g x) (h x) := by
  induction l with
  | nil => rfl
  | cons a l ih => simp [ih]

/-- C9: on a table whose timestamps all parse, the duration derivation
produces row-wise `(end - start) in seconds / 60`; on a table containing
any malformed timestamp it fails with a `ParseError` (no duration column is
produced at all — malformed cells are never coerced to zero), and the
daily-trends view built on it aborts with that failure. -/
theorem derive_duration_spec (l : List RawTrip) :
    ((∀ r ∈ l, r.started_at.isValid = true ∧ r.ended_at.isValid = true) →
      derive_duration_minutes l =
        Except.ok (l.map fun r => (r.ended_at.sec - r.started_at.sec) / 60)) ∧
    ((∃ r ∈ l, r.started_at.isValid = false ∨ r.ended_at.isValid = false) →
      (∃ e, derive_duration_minutes l = Except.error e) ∧
      ∃ e, daily_trends_from_raw l = Except.error e) := by
  constructor
  · intro h
    have hs : ∀ c ∈ l.map fun r => r.started_at, c.isValid = true := by
      intro c hc
      obtain ⟨r, hr, rfl⟩ := List.mem_map.mp hc
      exact (h r hr).1
    have he : ∀ c ∈ l.map fun r => r.ended_at, c.isValid = true := by
      intro c hc
      obtain ⟨r, hr, rfl⟩ := List.mem_map.mp hc
      exact (h r hr).2
    rw [derive_duration_minutes, to_datetime_ok _ hs, to_datetime_ok _ he]
    simp only [List.map_map]
    rw [zipWith_map_same]
    rfl
  · intro h
    by_cases hstart : ∃ c ∈ l.map fun r => r.started_at, c.isValid = false
    · obtain ⟨e, he⟩ := to_datetime_err _ hstart
      exact ⟨⟨e, by rw [derive_duration_minutes, he]⟩,
        ⟨e, by rw [daily_trends_from_raw, he]⟩⟩
    · have hstart2 : ∀ c ∈ l.map fun r => r.started_at, c.isValid = true := by
        intro c hc
        by_contra hcf
        exact hstart ⟨c, hc, by simpa using hcf⟩
      have hend : ∃ c ∈ l.map fun r => r.ended_at, c.isValid = false := by
        obtain ⟨r, hr, hbad⟩ := h
        rcases hbad with hb | hb
        · have := hstart2 r.started_at (List.mem_map_of_mem _ hr)
          rw [this] at hb
          cases hb
        · exact ⟨r.ended_at, List.mem_map_of_mem _ hr, hb⟩
      obtain ⟨e, he⟩ := to_datetime_err _ hend
      refine ⟨⟨e, ?_⟩, ⟨e, ?_⟩⟩
      · rw [derive_duration_minutes, to_datetime_ok _ hstart2, he]
      · rw [daily_trends_from_raw, to_datetime_ok _ hstart2, he]

/-- Witness for C9: a parseable row yields its 130-minute duration, and a
row with a malformed start timestamp makes the derivation fail. -/
theorem derive_duration_spec_witness :
    derive_duration_minutes [rawOK] = Except.ok [(130 : ℚ)] ∧
    ∃ e, derive_duration_minutes [rawBad] = Except.error e := by
  constructor
  · have h := (derive_duration_spec [rawOK]).1 ?hv
    case hv =>
      intro r hr
      rcases List.mem_cons.mp hr with rfl | h2
      · exact ⟨rfl, rfl⟩
      · cases h2
    rw [h]
    norm_num [rawOK, TsCell.sec]
  · exact ((derive_duration_spec [rawBad]).2
      ⟨rawBad, List.mem_cons_self _ _, Or.inl rfl⟩).1

/-- C10: every page body leaves the memoized raw table unchanged — columns
are derived only on a copy — so over any sequence of view selections in one
process the session state is preserved and each view observes (and renders
from) the identical cached table it would observe if it ran first. -/
theorem views_frame_spec (s : Session) (ps : List Page) :
    (runSeq ps s).1 = s ∧ (runSeq ps s).2 = ps.map fun p => (runView p s).2 := by
  have hview : ∀ (p : Page) (s0 : Session), (runView p s0).1 = s0 := by
    intro p s0
    cases p <;> rfl
  induction ps with
  | nil => exact ⟨rfl, rfl⟩
  | cons p ps ih =>
    refine ⟨?_, ?_⟩
    · show (runSeq ps (runView p s).1).1 = s
      rw [hview p s]
      exact ih.1
    · show (runView p s).2 :: (runSeq ps (runView p s).1).2
        = (p :: ps).map fun q => (runView q s).2
      rw [hview p s, List.map_cons, ih.2]

end CitiBike
